import Mathlib

/-!
Shallow embedding of the continuous-cache evaluation program of this
repository, centred on `src/scripts/run_cache.py`.  Real-valued tensors are
modelled over `ℚ`; the exponential used by `softmax` (and the logarithm used
by the loss) are abstract function parameters `E` and `lg`, since the proved
properties hold for any strictly positive exponential.  The ring cache
(`seqmod.modules.cache.Cache`) and the loss statistic (`LossStatistics`) are
imported by the script but their modules are not among the source files, so
they are modelled from the spec, as marked on their doc comments.
-/

namespace RunCache

/-- One-dimensional `Tensor.index_add_` over a flat vector, as used on
`t.view(-1)` in `batch_index_add_` of run_cache.py: position `j` of the
output is `t j` plus the sum of all source entries whose index equals `j`
(accumulating, not overwriting). -/
def index_add {n m : ℕ} (t : Fin n → ℚ) (idx : Fin m → Fin n) (src : Fin m → ℚ) :
    Fin n → ℚ :=
  fun j => t j + ∑ k, if idx k = j then src k else 0

/-- `batch_index_add_` from run_cache.py (lines 71-82): the lane offsets
`ex = arange(batch) * vocab` are added to the per-lane symbol indices and a
single one-dimensional `index_add_` is performed on the flattened tensor.
`finProdFinEquiv (l, s) = s + vocab * l` is exactly the flattened offset
`l * vocab + s` of the source. -/
def batch_index_add {b v w : ℕ} (t : Fin b → Fin v → ℚ)
    (index : Fin b → Fin w → Fin v) (src : Fin b → Fin w → ℚ) :
    Fin b → Fin v → ℚ :=
  fun l s =>
    index_add
      (fun j => t (finProdFinEquiv.symm j).1 (finProdFinEquiv.symm j).2)
      (fun k => finProdFinEquiv
        ((finProdFinEquiv.symm k).1,
          index (finProdFinEquiv.symm k).1 (finProdFinEquiv.symm k).2))
      (fun k => src (finProdFinEquiv.symm k).1 (finProdFinEquiv.symm k).2)
      (finProdFinEquiv (l, s))

/-- Softmax over an abstract exponential `E`, embedding `F.softmax(x, dim)`
along the summed dimension: `softmax E x i = E (x i) / ∑ j, E (x j)`. -/
def softmax (E : ℚ → ℚ) {n : ℕ} (x : Fin n → ℚ) : Fin n → ℚ :=
  fun i => E (x i) / ∑ j, E (x j)

/-- Modelled from the spec: the module `seqmod.modules.cache` imported by
run_cache.py is not among the source files.  Spec sections 3 and 4.1 describe
`Cache` as a fixed-capacity multi-lane ring buffer of (key vector, symbol)
pairs with a write cursor advanced modulo the capacity and a fill count
capped at the capacity.  Symbols are stored verbatim (the symbol type is a
parameter); `h_stored` is the spec invariant `0 <= filled <= capacity`. -/
structure Cache (cap lanes dim : ℕ) (σ : Type) where
  keys : Fin lanes → Fin cap → Fin dim → ℚ
  symbols : Fin lanes → Fin cap → σ
  current : ℕ
  stored : ℕ
  h_stored : stored ≤ cap

/-- Modelled from the spec: a freshly constructed cache has `filled = 0` and
its slots unwritten (here initialised to `0` keys and a default symbol). -/
def Cache.empty (cap lanes dim : ℕ) (σ : Type) (s0 : σ) : Cache cap lanes dim σ :=
  ⟨fun _ _ _ => 0, fun _ _ => s0, 0, 0, Nat.zero_le _⟩

/-- Modelled from the spec: `insert` writes one (key, symbol) pair per lane at
the write cursor, then advances `write_cursor = (write_cursor + 1) mod
capacity` and `filled = min (filled + 1) capacity` (spec section 4.1). -/
def Cache.add {cap lanes dim : ℕ} {σ : Type} (c : Cache cap lanes dim σ)
    (key : Fin lanes → Fin dim → ℚ) (sym : Fin lanes → σ) : Cache cap lanes dim σ :=
  { keys := fun l j => if (j : ℕ) = c.current % cap then key l else c.keys l j
    symbols := fun l j => if (j : ℕ) = c.current % cap then sym l else c.symbols l j
    current := (c.current + 1) % cap
    stored := min (c.stored + 1) cap
    h_stored := min_le_right _ _ }

/-- The physical slot read by position `i` of a query result: with the write
cursor starting at slot 0, the `filled` valid entries occupy slots
`0 .. filled-1` (all slots once the ring has wrapped). -/
def Cache.querySlot {cap lanes dim : ℕ} {σ : Type} (c : Cache cap lanes dim σ)
    (i : Fin c.stored) : Fin cap :=
  ⟨i.val, lt_of_lt_of_le i.isLt c.h_stored⟩

/-- Modelled from the spec: `query` returns, per lane, the dot product of the
probe against every currently valid stored key, positionally aligned with the
stored symbols (spec sections 3 and 4.1). -/
def Cache.query {cap lanes dim : ℕ} {σ : Type} (c : Cache cap lanes dim σ)
    (probe : Fin lanes → Fin dim → ℚ) :
    (Fin lanes → Fin c.stored → ℚ) × (Fin lanes → Fin c.stored → σ) :=
  (fun l i => ∑ d, probe l d * c.keys l (c.querySlot i) d,
   fun l i => c.symbols l (c.querySlot i))

/-- The per-step distribution of run_cache.py (lines 102-112): when the cache
is non-empty, `cache_prob = alpha * softmax (theta * cache_logits)` is
scatter-added onto `prob = (1 - alpha) * softmax logits` at the cached symbol
positions via `batch_index_add_`; with an empty cache the plain softmax of
the base logits is used and no query is made. -/
def stepProb (E : ℚ → ℚ) (alpha theta : ℚ) {cap lanes dim vocab : ℕ}
    (c : Cache cap lanes dim (Fin vocab)) (out : Fin lanes → Fin dim → ℚ)
    (logits : Fin lanes → Fin vocab → ℚ) : Fin lanes → Fin vocab → ℚ :=
  if 0 < c.stored then
    batch_index_add
      (fun l v => (1 - alpha) * softmax E (logits l) v)
      (c.query out).2
      (fun l i => alpha * softmax E (fun j => theta * (c.query out).1 l j) i)
  else
    fun l => softmax E (logits l)

/-- Modelled from the spec: `LossStatistics` imported by run_cache.py is not
among the source files; the spec describes it as a running (sum, count)
statistic whose `reduce` for perplexity is `exp (total_nll / total_tokens)`
(spec section 4.4).  `EvalState` carries it together with the cache. -/
structure EvalState (cap lanes dim vocab : ℕ) where
  cache : Cache cap lanes dim (Fin vocab)
  lossSum : ℚ
  lossCount : ℕ

/-- The batch loss of one step, `F.nll_loss(prob.add(1e-8).log(), target)`
(run_cache.py line 114): the additive floor `1e-8` is applied before the
logarithm `lg`, and the negated log-probabilities of the true targets are
averaged over the lanes. -/
def nll_floor_log (lg : ℚ → ℚ) {lanes vocab : ℕ} (prob : Fin lanes → Fin vocab → ℚ)
    (target : Fin lanes → Fin vocab) : ℚ :=
  (∑ l, -(lg (prob l (target l) + 1 / 100000000))) / (lanes : ℚ)

/-- One time step of the evaluation loop (run_cache.py lines 98-116), also
returning the distribution used for the loss: compute `stepProb` from the
current cache, accumulate the floored negative log-likelihood weighted by
`target.nelement() = lanes`, and only then insert the step's (hidden vector,
ground-truth target) pair into the cache. -/
def evalStepOut (E lg : ℚ → ℚ) (alpha theta : ℚ) {cap lanes dim vocab : ℕ}
    (s : EvalState cap lanes dim vocab) (out : Fin lanes → Fin dim → ℚ)
    (logits : Fin lanes → Fin vocab → ℚ) (target : Fin lanes → Fin vocab) :
    EvalState cap lanes dim vocab × (Fin lanes → Fin vocab → ℚ) :=
  (⟨s.cache.add out target,
    s.lossSum
      + nll_floor_log lg (stepProb E alpha theta s.cache out logits) target
        * (lanes : ℚ),
    s.lossCount + lanes⟩,
   stepProb E alpha theta s.cache out logits)

/-- The state transition of one evaluation step. -/
def evalStep (E lg : ℚ → ℚ) (alpha theta : ℚ) {cap lanes dim vocab : ℕ}
    (s : EvalState cap lanes dim vocab) (out : Fin lanes → Fin dim → ℚ)
    (logits : Fin lanes → Fin vocab → ℚ) (target : Fin lanes → Fin vocab) :
    EvalState cap lanes dim vocab :=
  (evalStepOut E lg alpha theta s out logits target).1

/-- Python `int()` applied to a rational: truncation toward zero. -/
def pyInt (q : ℚ) : ℤ :=
  q.num.tdiv (q.den : ℤ)

/-- Python `range(start, stop, step)` over integers for a positive step (the
only case run_cache.py exercises; `range` with step 0 raises). -/
def pyRange (start stop step : ℤ) : List ℤ :=
  if 0 < step then
    (List.range ((stop - start + step - 1) / step).toNat).map
      (fun (i : ℕ) => start + step * (i : ℤ))
  else []

/-- `range_float` from run_cache.py (lines 17-22): scale by `factor = 1/step`,
truncate the scaled endpoints to integers, and divide the integer range back
by the factor. -/
def range_float (start stop step : ℚ) : List ℚ :=
  (pyRange (pyInt (start * (1 / step))) (pyInt (stop * (1 / step)))
      (pyInt (step * (1 / step)))).map
    (fun (i : ℤ) => (i : ℚ) / (1 / step))

/-- The command-line option strings registered by the argparse configuration
of run_cache.py (lines 27-43), in registration order. -/
def runCacheOptions : List String :=
  ["--path", "--processed", "--model_path", "--lower", "--num", "--level",
   "--cache_size", "--alpha", "--theta", "--run_grid", "--batch_size",
   "--bptt", "--device"]

/-- The grid construction of run_cache.py (lines 86-89): with `--run_grid` the
configurations are `itertools.product(range_float(0, 1, 0.1),
range_float(0, 0.5, 0.01))` — the Cartesian product in row-major order, which
is `List.product` — and otherwise the single configured pair
`[(args.theta, args.alpha)]`. -/
def grid_of (run_grid : Bool) (theta alpha : ℚ) : List (ℚ × ℚ) :=
  if run_grid then
    List.product (range_float 0 1 (1 / 10)) (range_float 0 (1 / 2) (1 / 100))
  else [(theta, alpha)]

/-- The state threaded through the grid loop of run_cache.py: the model's
recurrent hidden state (opaque, type `H`) together with the cache and the
loss statistic, all created once before the loop (lines 68-69). -/
structure GridState (H : Type) (cap lanes dim vocab : ℕ) where
  hidden : H
  eval : EvalState cap lanes dim vocab

/-- Modelled from the spec: `loss.reduce()` of the `LossStatistics` object is
`exp (total_nll / total_tokens)` (spec section 4.4); the exponential is the
abstract `E`. -/
def lossReduce (E : ℚ → ℚ) {cap lanes dim vocab : ℕ}
    (s : EvalState cap lanes dim vocab) : ℚ :=
  E (s.lossSum / (s.lossCount : ℚ))

/-- One `(source, targets)` chunk of the evaluation loop (run_cache.py lines
93-116): the opaque model `M` consumes the source and the carried hidden
state and yields the per-step hidden vectors and the next hidden state; the
projection `P` produces each step's base logits; the steps are folded through
`evalStep` in order. -/
def runChunk (E lg : ℚ → ℚ) (alpha theta : ℚ) {H S : Type}
    {cap lanes dim vocab : ℕ}
    (M : S → H → List (Fin lanes → Fin dim → ℚ) × H)
    (P : (Fin lanes → Fin dim → ℚ) → Fin lanes → Fin vocab → ℚ)
    (g : GridState H cap lanes dim vocab)
    (ck : S × List (Fin lanes → Fin vocab)) : GridState H cap lanes dim vocab :=
  ⟨(M ck.1 g.hidden).2,
   ((M ck.1 g.hidden).1.zip ck.2).foldl
     (fun s ot => evalStep E lg alpha theta s ot.1 (P ot.1) ot.2) g.eval⟩

/-- One `(theta, alpha)` combination: a full pass over the dataset, threading
the grid state through every chunk. -/
def runConfig (E lg : ℚ → ℚ) {H S : Type} {cap lanes dim vocab : ℕ}
    (M : S → H → List (Fin lanes → Fin dim → ℚ) × H)
    (P : (Fin lanes → Fin dim → ℚ) → Fin lanes → Fin vocab → ℚ)
    (data : List (S × List (Fin lanes → Fin vocab)))
    (theta alpha : ℚ)
    (g : GridState H cap lanes dim vocab) : GridState H cap lanes dim vocab :=
  data.foldl (runChunk E lg alpha theta M P) g

/-- The grid loop of run_cache.py (lines 91-123): each `(theta, alpha)`
combination runs a full pass starting from the state left by the previous
combination — nothing is reset — and records one `loss.reduce()` line after
its pass. -/
def runGrid (E lg : ℚ → ℚ) {H S : Type} {cap lanes dim vocab : ℕ}
    (M : S → H → List (Fin lanes → Fin dim → ℚ) × H)
    (P : (Fin lanes → Fin dim → ℚ) → Fin lanes → Fin vocab → ℚ)
    (data : List (S × List (Fin lanes → Fin vocab))) :
    List (ℚ × ℚ) → GridState H cap lanes dim vocab →
      GridState H cap lanes dim vocab × List ℚ
  | [], g => (g, [])
  | p :: rest, g =>
      ((runGrid E lg M P data rest (runConfig E lg M P data p.1 p.2 g)).1,
       lossReduce E (runConfig E lg M P data p.1 p.2 g).eval
         :: (runGrid E lg M P data rest (runConfig E lg M P data p.1 p.2 g)).2)

/-- Inserting `n` entries with symbols `0 .. n-1` (and key vectors `[m]`)
into an initially empty single-lane, one-dimensional cache, in order. -/
def fifoRun (cap n : ℕ) : Cache cap 1 1 ℕ :=
  (List.range n).foldl
    (fun c (m : ℕ) => c.add (fun _ _ => (m : ℚ)) (fun _ => m))
    (Cache.empty cap 1 1 ℕ 0)

/-- A concrete one-entry cache used to instantiate theorems: one insert into
an empty cache with capacity 1, one lane, key dimension 1 and vocabulary 2. -/
def cacheW : Cache 1 1 1 (Fin 2) :=
  (Cache.empty 1 1 1 (Fin 2) 0).add (fun _ _ => 1) (fun _ => 1)

/-- A concrete initial evaluation state used to instantiate theorems. -/
def stateW : EvalState 1 1 1 2 :=
  ⟨Cache.empty 1 1 1 (Fin 2) 0, 0, 0⟩

/-- Per-lane semantics of the flattened scatter-add: entry `(l, s)` gains the
sum of the source entries of lane `l` whose index is `s`. -/
lemma batch_index_add_apply {b v w : ℕ} (t : Fin b → Fin v → ℚ)
    (index : Fin b → Fin w → Fin v) (src : Fin b → Fin w → ℚ)
    (l : Fin b) (s : Fin v) :
    batch_index_add t index src l s
      = t l s + ∑ i, if index l i = s then src l i else 0 := by
  unfold batch_index_add index_add
  simp only [Equiv.symm_apply_apply]
  congr 1
  rw [← Equiv.sum_comp (finProdFinEquiv : Fin b × Fin w ≃ Fin (b * w))]
  simp only [Equiv.symm_apply_apply, Equiv.apply_eq_iff_eq, Prod.mk.injEq]
  rw [Fintype.sum_prod_type]
  have h : ∀ x : Fin b,
      (∑ i, if x = l ∧ index x i = s then src x i else 0)
        = if x = l then ∑ i, if index x i = s then src x i else 0 else 0 := by
    intro x
    by_cases hx : x = l
    · subst hx; simp
    · simp [hx]
  rw [Finset.sum_congr rfl (fun x _ => h x), Finset.sum_ite_eq' Finset.univ l]
  simp

lemma softmax_denom_pos {E : ℚ → ℚ} (hE : ∀ x, 0 < E x) {n : ℕ} (hn : 0 < n)
    (x : Fin n → ℚ) : 0 < ∑ j, E (x j) :=
  Finset.sum_pos (fun j _ => hE (x j)) ⟨⟨0, hn⟩, Finset.mem_univ _⟩

lemma softmax_nonneg {E : ℚ → ℚ} (hE : ∀ x, 0 < E x) {n : ℕ}
    (x : Fin n → ℚ) (i : Fin n) : 0 ≤ softmax E x i :=
  div_nonneg (le_of_lt (hE _)) (le_of_lt (softmax_denom_pos hE i.pos x))

lemma softmax_sum_eq_one {E : ℚ → ℚ} (hE : ∀ x, 0 < E x) {n : ℕ} (hn : 0 < n)
    (x : Fin n → ℚ) : ∑ i, softmax E x i = 1 := by
  unfold softmax
  rw [← Finset.sum_div]
  exact div_self (ne_of_gt (softmax_denom_pos hE hn x))

lemma stepProb_pos_apply (E : ℚ → ℚ) (alpha theta : ℚ) {cap lanes dim vocab : ℕ}
    (c : Cache cap lanes dim (Fin vocab)) (out : Fin lanes → Fin dim → ℚ)
    (logits : Fin lanes → Fin vocab → ℚ) (hs : 0 < c.stored)
    (l : Fin lanes) (v : Fin vocab) :
    stepProb E alpha theta c out logits l v
      = (1 - alpha) * softmax E (logits l) v
        + ∑ i, if (c.query out).2 l i = v
               then alpha * softmax E (fun j => theta * (c.query out).1 l j) i
               else 0 := by
  unfold stepProb
  rw [if_pos hs]
  exact batch_index_add_apply _ _ _ l v

lemma stepProb_nonneg (E : ℚ → ℚ) (alpha theta : ℚ) {cap lanes dim vocab : ℕ}
    (c : Cache cap lanes dim (Fin vocab)) (out : Fin lanes → Fin dim → ℚ)
    (logits : Fin lanes → Fin vocab → ℚ)
    (hE : ∀ x, 0 < E x) (h0 : 0 ≤ alpha) (h1 : alpha ≤ 1)
    (l : Fin lanes) (v : Fin vocab) :
    0 ≤ stepProb E alpha theta c out logits l v := by
  by_cases hs : 0 < c.stored
  · rw [stepProb_pos_apply E alpha theta c out logits hs l v]
    refine add_nonneg (mul_nonneg (by linarith) (softmax_nonneg hE _ v)) ?_
    refine Finset.sum_nonneg fun i _ => ?_
    by_cases hi : (c.query out).2 l i = v
    · rw [if_pos hi]; exact mul_nonneg h0 (softmax_nonneg hE _ i)
    · rw [if_neg hi]
  · unfold stepProb
    rw [if_neg hs]
    exact softmax_nonneg hE _ v

lemma fifoRun_succ (cap n : ℕ) :
    fifoRun cap (n + 1)
      = (fifoRun cap n).add (fun _ _ => (n : ℚ)) (fun _ => n) := by
  unfold fifoRun
  rw [List.range_succ, List.foldl_append]
  rfl

/-- State invariant of the FIFO insertion run: the cursor walks modulo the
capacity, the fill count grows to the capacity, and every written slot `j`
holds one of the last `cap` inserted symbols, congruent to `j` modulo the
capacity. -/
lemma fifoRun_state (cap : ℕ) (hcap : 0 < cap) (n : ℕ) :
    (fifoRun cap n).current = n % cap ∧
    (fifoRun cap n).stored = min n cap ∧
    ∀ j : Fin cap, (j : ℕ) < n →
      ((fifoRun cap n).symbols 0 j ∈ Finset.Ico (n - cap) n ∧
       (fifoRun cap n).symbols 0 j % cap = (j : ℕ)) := by
  induction n with
  | zero =>
      refine ⟨?_, ?_, fun j hj => absurd hj (Nat.not_lt_zero _)⟩
      · simp [fifoRun, Cache.empty]
      · simp [fifoRun, Cache.empty]
  | succ n ih =>
      obtain ⟨hc, hst, hsym⟩ := ih
      rw [fifoRun_succ]
      simp only [Cache.add, hc, Nat.mod_mod_of_dvd n dvd_rfl]
      refine ⟨Nat.mod_add_mod n cap 1, by omega, ?_⟩
      intro j hj
      by_cases hje : (j : ℕ) = n % cap
      · rw [if_pos hje]
        exact ⟨by rw [Finset.mem_Ico]; omega, hje.symm⟩
      · rw [if_neg hje]
        have hjn : (j : ℕ) < n := by
          rcases Nat.lt_succ_iff_lt_or_eq.mp hj with h | h
          · exact h
          · exact absurd (h.trans (Nat.mod_eq_of_lt (h ▸ j.isLt)).symm) hje
        obtain ⟨hmem, hmod⟩ := hsym j hjn
        rw [Finset.mem_Ico] at hmem
        refine ⟨?_, hmod⟩
        rw [Finset.mem_Ico]
        rcases le_or_lt cap n with hcn | hcn
        · constructor
          · by_contra hlt
            push_neg at hlt
            have heq : (fifoRun cap n).symbols 0 j = n - cap := by omega
            exact hje (by rw [← hmod, heq, ← Nat.mod_eq_sub_mod hcn])
          · omega
        · omega

lemma range_float_theta :
    range_float 0 1 (1 / 10)
      = (List.range 10).map (fun (i : ℕ) => (i : ℚ) / 10) := by
  have h1 : pyInt ((0 : ℚ) * (1 / (1 / 10))) = 0 := by norm_num [pyInt]
  have h2 : pyInt ((1 : ℚ) * (1 / (1 / 10))) = 10 := by norm_num [pyInt]
  have h3 : pyInt ((1 / 10 : ℚ) * (1 / (1 / 10))) = 1 := by norm_num [pyInt]
  unfold range_float pyRange
  rw [h1, h2, h3]
  rw [if_pos (by norm_num : (0 : ℤ) < 1)]
  rw [show ((10 : ℤ) - 0 + 1 - 1) / 1 = 10 by norm_num]
  rw [show ((10 : ℤ)).toNat = 10 from rfl]
  rw [List.map_map]
  have hfun : ((fun (i : ℤ) => (i : ℚ) / (1 / (1 / 10)))
        ∘ (fun (i : ℕ) => (0 : ℤ) + 1 * (i : ℤ)))
      = (fun (i : ℕ) => (i : ℚ) / 10) := by
    funext i
    simp only [Function.comp]
    push_cast
    norm_num
  rw [hfun]

lemma range_float_alpha :
    range_float 0 (1 / 2) (1 / 100)
      = (List.range 50).map (fun (i : ℕ) => (i : ℚ) / 100) := by
  have h1 : pyInt ((0 : ℚ) * (1 / (1 / 100))) = 0 := by norm_num [pyInt]
  have h2 : pyInt ((1 / 2 : ℚ) * (1 / (1 / 100))) = 50 := by norm_num [pyInt]
  have h3 : pyInt ((1 / 100 : ℚ) * (1 / (1 / 100))) = 1 := by norm_num [pyInt]
  unfold range_float pyRange
  rw [h1, h2, h3]
  rw [if_pos (by norm_num : (0 : ℤ) < 1)]
  rw [show ((50 : ℤ) - 0 + 1 - 1) / 1 = 50 by norm_num]
  rw [show ((50 : ℤ)).toNat = 50 from rfl]
  rw [List.map_map]
  have hfun : ((fun (i : ℤ) => (i : ℚ) / (1 / (1 / 100)))
        ∘ (fun (i : ℕ) => (0 : ℤ) + 1 * (i : ℤ)))
      = (fun (i : ℕ) => (i : ℚ) / 100) := by
    funext i
    simp only [Function.comp]
    push_cast
    norm_num
  rw [hfun]

lemma runGrid_results_length (E lg : ℚ → ℚ) {H S : Type}
    {cap lanes dim vocab : ℕ}
    (M : S → H → List (Fin lanes → Fin dim → ℚ) × H)
    (P : (Fin lanes → Fin dim → ℚ) → Fin lanes → Fin vocab → ℚ)
    (data : List (S × List (Fin lanes → Fin vocab)))
    (grid : List (ℚ × ℚ)) (g : GridState H cap lanes dim vocab) :
    ((runGrid E lg M P data grid g).2).length = grid.length := by
  induction grid generalizing g with
  | nil => rfl
  | cons p rest ih => simp [runGrid, ih]

lemma runGrid_results (E lg : ℚ → ℚ) {H S : Type} {cap lanes dim vocab : ℕ}
    (M : S → H → List (Fin lanes → Fin dim → ℚ) × H)
    (P : (Fin lanes → Fin dim → ℚ) → Fin lanes → Fin vocab → ℚ)
    (data : List (S × List (Fin lanes → Fin vocab)))
    (grid : List (ℚ × ℚ)) (g : GridState H cap lanes dim vocab) :
    (runGrid E lg M P data grid g).2
      = (List.range grid.length).map (fun j =>
          lossReduce E
            (((grid.take (j + 1)).foldl
                (fun s q => runConfig E lg M P data q.1 q.2 s) g).eval)) := by
  induction grid generalizing g with
  | nil => rfl
  | cons p rest ih =>
      simp only [runGrid, List.length_cons, List.range_succ_eq_map, List.map_cons,
        List.map_map, List.take_succ_cons, List.foldl_cons, List.take_zero,
        List.foldl_nil]
      congr 1
      rw [ih]
      rfl

/-- C1: In linear mode, for every time step with a non-empty cache
(`stored > 0`), the final per-lane distribution equals
`(1 - alpha) * softmax base_logits` with `alpha * softmax (theta *
cache_scores)` scatter-added at the cached symbol positions, where the cache
scores and symbols are the result of querying the cache with the step's
hidden vector. -/
theorem linear_mode_interpolation (E : ℚ → ℚ) (alpha theta : ℚ)
    {cap lanes dim vocab : ℕ} (c : Cache cap lanes dim (Fin vocab))
    (out : Fin lanes → Fin dim → ℚ) (logits : Fin lanes → Fin vocab → ℚ)
    (hs : 0 < c.stored) (l : Fin lanes) (v : Fin vocab) :
    stepProb E alpha theta c out logits l v
      = (1 - alpha) * softmax E (logits l) v
        + ∑ i, if (c.query out).2 l i = v
               then alpha * softmax E (fun j => theta * (c.query out).1 l j) i
               else 0 :=
  stepProb_pos_apply E alpha theta c out logits hs l v

/-- C1 witness: the interpolation formula at a concrete one-entry cache. -/
theorem linear_mode_interpolation_witness :
    0 < cacheW.stored
    ∧ stepProb (fun _ => 1) (1 / 2) 2 cacheW (fun _ _ => 1) (fun _ _ => 0) 0 0
        = (1 - 1 / 2) * softmax (fun _ => 1) (fun (_ : Fin 2) => (0 : ℚ)) 0
          + ∑ i, if (cacheW.query fun _ _ => 1).2 0 i = 0
                 then 1 / 2 * softmax (fun _ => 1)
                  (fun j => 2 * (cacheW.query fun _ _ => 1).1 0 j) i
                 else 0 :=
  ⟨by decide,
   linear_mode_interpolation (fun _ => 1) (1 / 2) 2 cacheW (fun _ _ => 1)
     (fun _ _ => 0) (by decide) 0 0⟩

/-- C2 counterexample: the option list embedded from the argparse
configuration of run_cache.py contains no `--mode` option at all, so the
program does not recognize a mode configuration option with values linear
and global, and no global-mode code path is selectable. -/
theorem mode_option_absent : ("--mode" ∈ runCacheOptions) = False :=
  eq_false (by decide)

/-- C2 amended: the script recognizes no mode option, and a single
interpolation code path exists — for a non-empty cache the final distribution
is the linear-mode formula, otherwise the plain softmax of the base logits;
there is no global-mode path perturbing logits before a single softmax. -/
theorem no_mode_option_single_path (E : ℚ → ℚ) (alpha theta : ℚ)
    {cap lanes dim vocab : ℕ} (c : Cache cap lanes dim (Fin vocab))
    (out : Fin lanes → Fin dim → ℚ) (logits : Fin lanes → Fin vocab → ℚ)
    (l : Fin lanes) (v : Fin vocab) :
    ("--mode" ∈ runCacheOptions) = False
    ∧ stepProb E alpha theta c out logits l v
        = if 0 < c.stored
          then (1 - alpha) * softmax E (logits l) v
            + ∑ i, if (c.query out).2 l i = v
                   then alpha * softmax E (fun j => theta * (c.query out).1 l j) i
                   else 0
          else softmax E (logits l) v := by
  refine ⟨eq_false (by decide), ?_⟩
  by_cases hs : 0 < c.stored
  · rw [if_pos hs]
    exact stepProb_pos_apply E alpha theta c out logits hs l v
  · rw [if_neg hs]
    unfold stepProb
    rw [if_neg hs]

/-- C3: at every time step with an empty cache (`stored = 0`), and for every
configuration of `alpha` and `theta`, the distribution used for the loss is
exactly the plain softmax of the base logits: no query, no interpolation. -/
theorem empty_cache_plain_softmax (E : ℚ → ℚ) (alpha theta : ℚ)
    {cap lanes dim vocab : ℕ} (c : Cache cap lanes dim (Fin vocab))
    (out : Fin lanes → Fin dim → ℚ) (logits : Fin lanes → Fin vocab → ℚ)
    (hs : c.stored = 0) :
    stepProb E alpha theta c out logits = fun l => softmax E (logits l) := by
  unfold stepProb
  rw [if_neg (by omega)]

/-- C3 witness: the first-step boundary at a concrete empty cache. -/
theorem empty_cache_plain_softmax_witness :
    (Cache.empty 1 1 1 (Fin 2) 0).stored = 0
    ∧ stepProb (fun _ => 1) (1 / 2) 2 (Cache.empty 1 1 1 (Fin 2) 0)
        (fun _ _ => 1) (fun (_ : Fin 1) (_ : Fin 2) => (0 : ℚ))
      = fun l => softmax (fun _ => 1) ((fun (_ : Fin 1) (_ : Fin 2) => (0 : ℚ)) l) :=
  ⟨rfl,
   empty_cache_plain_softmax (fun _ => 1) (1 / 2) 2 (Cache.empty 1 1 1 (Fin 2) 0)
     (fun _ _ => 1) (fun _ _ => 0) rfl⟩

/-- C4: the scatter operation adds, at every lane `l` and symbol `s`, the sum
of the source contributions of all slots of lane `l` indexed by `s` to the
base tensor; in particular a symbol hit by two slots of one lane with
contributions `a` and `b` gains `a + b` (accumulation, not overwrite). -/
theorem scatter_add_accumulates :
    (∀ (b v w : ℕ) (t : Fin b → Fin v → ℚ) (index : Fin b → Fin w → Fin v)
        (src : Fin b → Fin w → ℚ) (l : Fin b) (s : Fin v),
        batch_index_add t index src l s
          = t l s + ∑ i, if index l i = s then src l i else 0)
    ∧ ∀ (v : ℕ) (t : Fin 1 → Fin v → ℚ) (s : Fin v) (a b : ℚ),
        batch_index_add t (fun _ _ => s)
            (fun _ (i : Fin 2) => if i = 0 then a else b) 0 s
          = t 0 s + (a + b) := by
  refine ⟨fun b v w t index src l s => batch_index_add_apply t index src l s, ?_⟩
  intro v t s a b
  rw [batch_index_add_apply, Fin.sum_univ_two]
  simp

/-- C5: for every step with a non-empty cache, `alpha` in `[0,1]`, any
`theta`, and any strictly positive exponential, the interpolated per-lane
distribution is non-negative in every coordinate and sums to exactly 1. -/
theorem interpolated_distribution_valid (E : ℚ → ℚ) (alpha theta : ℚ)
    {cap lanes dim vocab : ℕ} (c : Cache cap lanes dim (Fin vocab))
    (out : Fin lanes → Fin dim → ℚ) (logits : Fin lanes → Fin vocab → ℚ)
    (hE : ∀ x, 0 < E x) (h0 : 0 ≤ alpha) (h1 : alpha ≤ 1) (hs : 0 < c.stored)
    (l : Fin lanes) :
    (∀ v, 0 ≤ stepProb E alpha theta c out logits l v)
    ∧ ∑ v, stepProb E alpha theta c out logits l v = 1 := by
  have hvocab : 0 < vocab := ((c.query out).2 l ⟨0, hs⟩).pos
  refine ⟨fun v => stepProb_nonneg E alpha theta c out logits hE h0 h1 l v, ?_⟩
  rw [Finset.sum_congr rfl
    (fun v _ => stepProb_pos_apply E alpha theta c out logits hs l v)]
  rw [Finset.sum_add_distrib, ← Finset.mul_sum, softmax_sum_eq_one hE hvocab]
  rw [Finset.sum_comm]
  have hinner : ∀ i : Fin c.stored,
      (∑ v, if (c.query out).2 l i = v
            then alpha * softmax E (fun j => theta * (c.query out).1 l j) i
            else 0)
        = alpha * softmax E (fun j => theta * (c.query out).1 l j) i := by
    intro i
    rw [Finset.sum_ite_eq]
    simp
  rw [Finset.sum_congr rfl (fun i _ => hinner i), ← Finset.mul_sum,
    softmax_sum_eq_one hE hs]
  ring

/-- C5 witness: distribution validity at a concrete one-entry cache with
`alpha = 1/2`, `theta = 2` and the constant exponential. -/
theorem interpolated_distribution_valid_witness :
    (∀ x : ℚ, 0 < (fun _ => (1 : ℚ)) x)
    ∧ (0 : ℚ) ≤ 1 / 2
    ∧ (1 / 2 : ℚ) ≤ 1
    ∧ 0 < cacheW.stored
    ∧ ((∀ v, 0 ≤ stepProb (fun _ => 1) (1 / 2) 2 cacheW (fun _ _ => 1)
          (fun _ _ => 0) 0 v)
       ∧ ∑ v, stepProb (fun _ => 1) (1 / 2) 2 cacheW (fun _ _ => 1)
          (fun _ _ => 0) 0 v = 1) :=
  ⟨fun _ => one_pos, by norm_num, by norm_num, by decide,
   interpolated_distribution_valid (fun _ => 1) (1 / 2) 2 cacheW (fun _ _ => 1)
     (fun _ _ => 0) (fun _ => one_pos) (by norm_num) (by norm_num) (by decide) 0⟩

/-- C6: the additive floor `1e-8` is applied to the final probability before
the logarithm of the loss, so for every lane the argument of the logarithm is
strictly positive — even when the true target has zero mass — and the
accumulated loss term is the floored one. -/
theorem loss_floor_positive (E lg : ℚ → ℚ) (alpha theta : ℚ)
    {cap lanes dim vocab : ℕ} (s : EvalState cap lanes dim vocab)
    (out : Fin lanes → Fin dim → ℚ) (logits : Fin lanes → Fin vocab → ℚ)
    (target : Fin lanes → Fin vocab)
    (hE : ∀ x, 0 < E x) (h0 : 0 ≤ alpha) (h1 : alpha ≤ 1) :
    (∀ l, 0 < stepProb E alpha theta s.cache out logits l (target l)
      + 1 / 100000000)
    ∧ (evalStepOut E lg alpha theta s out logits target).1.lossSum
        = s.lossSum
          + nll_floor_log lg (stepProb E alpha theta s.cache out logits) target
            * (lanes : ℚ) := by
  refine ⟨fun l => ?_, rfl⟩
  have h := stepProb_nonneg E alpha theta s.cache out logits hE h0 h1 l (target l)
  have hfloor : (0 : ℚ) < 1 / 100000000 := by norm_num
  linarith

/-- C6 witness: positivity of the logarithm argument at a concrete state. -/
theorem loss_floor_positive_witness :
    (∀ x : ℚ, 0 < (fun _ => (1 : ℚ)) x)
    ∧ (0 : ℚ) ≤ 1 / 2
    ∧ (1 / 2 : ℚ) ≤ 1
    ∧ ((∀ l, 0 < stepProb (fun _ => 1) (1 / 2) 2 stateW.cache (fun _ _ => 1)
          (fun _ _ => 0) l ((fun _ => (0 : Fin 2)) l) + 1 / 100000000)
       ∧ (evalStepOut (fun _ => 1) (fun _ => 1) (1 / 2) 2 stateW (fun _ _ => 1)
            (fun _ _ => 0) (fun _ => 0)).1.lossSum
           = stateW.lossSum
             + nll_floor_log (fun _ => 1)
                 (stepProb (fun _ => 1) (1 / 2) 2 stateW.cache (fun _ _ => 1)
                   (fun _ _ => 0)) (fun _ => 0) * ((1 : ℕ) : ℚ)) :=
  ⟨fun _ => one_pos, by norm_num, by norm_num,
   loss_floor_positive (fun _ => 1) (fun _ => 1) (1 / 2) 2 stateW (fun _ _ => 1)
     (fun _ _ => 0) (fun _ => 0) (fun _ => one_pos) (by norm_num) (by norm_num)⟩

/-- C7: within one evaluation step the distribution is computed from the
pre-insert cache (query precedes insert); the state left behind holds exactly
the cache with the step's (hidden vector, ground-truth target) inserted —
independent of the model's own scores, so never the prediction — the next
step's distribution is computed from that post-insert cache, and the symbol
written at the cursor slot is the ground-truth target. -/
theorem query_insert_ordering (E lg : ℚ → ℚ) (alpha theta : ℚ)
    {cap lanes dim vocab : ℕ} (s : EvalState cap lanes dim vocab)
    (out1 out2 : Fin lanes → Fin dim → ℚ)
    (logits1 logits1b logits2 : Fin lanes → Fin vocab → ℚ)
    (tgt1 tgt2 : Fin lanes → Fin vocab) (hcap : 0 < cap) :
    (evalStepOut E lg alpha theta s out1 logits1 tgt1).2
        = stepProb E alpha theta s.cache out1 logits1
    ∧ (evalStepOut E lg alpha theta s out1 logits1 tgt1).1.cache
        = s.cache.add out1 tgt1
    ∧ (evalStepOut E lg alpha theta s out1 logits1 tgt1).1.cache
        = (evalStepOut E lg alpha theta s out1 logits1b tgt1).1.cache
    ∧ (evalStepOut E lg alpha theta
          (evalStep E lg alpha theta s out1 logits1 tgt1) out2 logits2 tgt2).2
        = stepProb E alpha theta (s.cache.add out1 tgt1) out2 logits2
    ∧ ∀ l, (s.cache.add out1 tgt1).symbols l
        ⟨s.cache.current % cap, Nat.mod_lt _ hcap⟩ = tgt1 l := by
  refine ⟨rfl, rfl, rfl, rfl, fun l => ?_⟩
  simp [Cache.add]

/-- C7 witness: the ordering facts at a concrete initial state. -/
theorem query_insert_ordering_witness :
    0 < 1
    ∧ ((evalStepOut (fun _ => 1) (fun _ => 1) (1 / 2) 2 stateW (fun _ _ => 1)
          (fun _ _ => 0) (fun _ => 0)).2
        = stepProb (fun _ => 1) (1 / 2) 2 stateW.cache (fun _ _ => 1) (fun _ _ => 0)
      ∧ (evalStepOut (fun _ => 1) (fun _ => 1) (1 / 2) 2 stateW (fun _ _ => 1)
          (fun _ _ => 0) (fun _ => 0)).1.cache
        = stateW.cache.add (fun _ _ => 1) (fun _ => 0)
      ∧ (evalStepOut (fun _ => 1) (fun _ => 1) (1 / 2) 2 stateW (fun _ _ => 1)
          (fun _ _ => 0) (fun _ => 0)).1.cache
        = (evalStepOut (fun _ => 1) (fun _ => 1) (1 / 2) 2 stateW (fun _ _ => 1)
          (fun _ _ => 3) (fun _ => 0)).1.cache
      ∧ (evalStepOut (fun _ => 1) (fun _ => 1) (1 / 2) 2
          (evalStep (fun _ => 1) (fun _ => 1) (1 / 2) 2 stateW (fun _ _ => 1)
            (fun _ _ => 0) (fun _ => 0)) (fun _ _ => 2) (fun _ _ => 1)
          (fun _ => 1)).2
        = stepProb (fun _ => 1) (1 / 2) 2
            (stateW.cache.add (fun _ _ => 1) (fun _ => 0)) (fun _ _ => 2)
            (fun _ _ => 1)
      ∧ ∀ l, (stateW.cache.add (fun _ _ => 1) (fun _ => 0)).symbols l
          ⟨stateW.cache.current % 1, Nat.mod_lt _ Nat.one_pos⟩ = 0) :=
  ⟨Nat.one_pos,
   query_insert_ordering (fun _ => 1) (fun _ => 1) (1 / 2) 2 stateW
     (fun _ _ => 1) (fun _ _ => 2) (fun _ _ => 0) (fun _ _ => 3) (fun _ _ => 1)
     (fun _ => 0) (fun _ => 1) Nat.one_pos⟩

/-- C8: in grid-search mode the evaluated configurations are exactly the
Cartesian product of theta over 0.0, 0.1, ..., 0.9 and alpha over 0.00, 0.01,
..., 0.49, in row-major order and without repetition, with one result line
recorded per combination; in single mode exactly the one configured pair is
evaluated. -/
theorem grid_search_configurations (theta alpha : ℚ) :
    range_float 0 1 (1 / 10)
        = (List.range 10).map (fun (i : ℕ) => (i : ℚ) / 10)
    ∧ range_float 0 (1 / 2) (1 / 100)
        = (List.range 50).map (fun (i : ℕ) => (i : ℚ) / 100)
    ∧ grid_of true theta alpha
        = List.product ((List.range 10).map (fun (i : ℕ) => (i : ℚ) / 10))
            ((List.range 50).map (fun (i : ℕ) => (i : ℚ) / 100))
    ∧ (grid_of true theta alpha).length = 500
    ∧ (grid_of true theta alpha).Nodup
    ∧ grid_of false theta alpha = [(theta, alpha)]
    ∧ ∀ (H S : Type) (E lg : ℚ → ℚ) (cap lanes dim vocab : ℕ)
        (M : S → H → List (Fin lanes → Fin dim → ℚ) × H)
        (P : (Fin lanes → Fin dim → ℚ) → Fin lanes → Fin vocab → ℚ)
        (data : List (S × List (Fin lanes → Fin vocab)))
        (grid : List (ℚ × ℚ)) (g : GridState H cap lanes dim vocab),
        ((runGrid E lg M P data grid g).2).length = grid.length := by
  have hgrid : grid_of true theta alpha
      = List.product ((List.range 10).map (fun (i : ℕ) => (i : ℚ) / 10))
          ((List.range 50).map (fun (i : ℕ) => (i : ℚ) / 100)) := by
    unfold grid_of
    rw [if_pos rfl, range_float_theta, range_float_alpha]
  have hinj10 : Function.Injective (fun (i : ℕ) => (i : ℚ) / 10) := by
    intro a b h
    have h2 := congrArg (fun x : ℚ => x * 10) h
    simp at h2
    exact_mod_cast h2
  have hinj100 : Function.Injective (fun (i : ℕ) => (i : ℚ) / 100) := by
    intro a b h
    have h2 := congrArg (fun x : ℚ => x * 100) h
    simp at h2
    exact_mod_cast h2
  refine ⟨range_float_theta, range_float_alpha, hgrid, ?_, ?_, ?_, ?_⟩
  · rw [hgrid]
    show (((List.range 10).map (fun (i : ℕ) => (i : ℚ) / 10)) ×ˢ
      ((List.range 50).map (fun (i : ℕ) => (i : ℚ) / 100))).length = 500
    rw [List.length_product]
    simp
  · rw [hgrid]
    exact List.Nodup.product (List.Nodup.map hinj10 (List.nodup_range 10))
      (List.Nodup.map hinj100 (List.nodup_range 50))
  · unfold grid_of
    rw [if_neg (by simp)]
  · intro H S E lg cap lanes dim vocab M P data grid g
    exact runGrid_results_length E lg M P data grid g

/-- C10: in grid-search mode the hidden state, the cache and the loss
statistic are threaded through the combinations without any reset: the run
over `p :: rest` continues `rest` from exactly the state left by combination
`p`, and the result recorded for the j-th combination is the reduced loss of
the state obtained by folding ALL combinations up to and including j from the
single initial state — so recorded grid results are not independent
per-configuration evaluations. -/
theorem grid_loop_threads_state (H S : Type) (E lg : ℚ → ℚ)
    (cap lanes dim vocab : ℕ)
    (M : S → H → List (Fin lanes → Fin dim → ℚ) × H)
    (P : (Fin lanes → Fin dim → ℚ) → Fin lanes → Fin vocab → ℚ)
    (data : List (S × List (Fin lanes → Fin vocab))) :
    (∀ (p : ℚ × ℚ) (rest : List (ℚ × ℚ)) (g : GridState H cap lanes dim vocab),
      runGrid E lg M P data (p :: rest) g
        = ((runGrid E lg M P data rest (runConfig E lg M P data p.1 p.2 g)).1,
           lossReduce E (runConfig E lg M P data p.1 p.2 g).eval
             :: (runGrid E lg M P data rest
                  (runConfig E lg M P data p.1 p.2 g)).2))
    ∧ ∀ (grid : List (ℚ × ℚ)) (g : GridState H cap lanes dim vocab),
        (runGrid E lg M P data grid g).2
          = (List.range grid.length).map (fun j =>
              lossReduce E
                (((grid.take (j + 1)).foldl
                    (fun s q => runConfig E lg M P data q.1 q.2 s) g).eval)) :=
  ⟨fun p rest g => rfl, fun grid g => runGrid_results E lg M P data grid g⟩

/-- C9: after inserting `cap + k` entries with pairwise distinct symbols
`0 .. cap+k-1` into an initially empty single-lane cache, the cache is full
and a query returns exactly the symbols of the `cap` most recent insertions
(the interval `[k, cap+k)`), each exactly once — strict per-lane FIFO
eviction. -/
theorem fifo_eviction_window (cap k : ℕ) (hcap : 0 < cap)
    (probe : Fin 1 → Fin 1 → ℚ) :
    (fifoRun cap (cap + k)).stored = cap
    ∧ Function.Injective (fun i : Fin (fifoRun cap (cap + k)).stored =>
        ((fifoRun cap (cap + k)).query probe).2 0 i)
    ∧ Finset.image (fun i : Fin (fifoRun cap (cap + k)).stored =>
        ((fifoRun cap (cap + k)).query probe).2 0 i) Finset.univ
        = Finset.Ico k (cap + k) := by
  obtain ⟨hc, hst, hsym⟩ := fifoRun_state cap hcap (cap + k)
  have hstored : (fifoRun cap (cap + k)).stored = cap := by rw [hst]; omega
  have hfact : ∀ i : Fin (fifoRun cap (cap + k)).stored,
      ((fifoRun cap (cap + k)).query probe).2 0 i ∈ Finset.Ico k (cap + k) ∧
      ((fifoRun cap (cap + k)).query probe).2 0 i % cap = (i : ℕ) := by
    intro i
    have hlt : (i : ℕ) < cap + k := by
      have h2 := i.isLt
      have h3 := (fifoRun cap (cap + k)).h_stored
      omega
    have h := hsym ((fifoRun cap (cap + k)).querySlot i) hlt
    have hck : cap + k - cap = k := by omega
    rw [hck] at h
    exact h
  have hinj : Function.Injective (fun i : Fin (fifoRun cap (cap + k)).stored =>
      ((fifoRun cap (cap + k)).query probe).2 0 i) := by
    intro a b hab
    apply Fin.ext
    rw [← (hfact a).2, ← (hfact b).2]
    exact congrArg (fun m => m % cap) hab
  refine ⟨hstored, hinj, ?_⟩
  apply Finset.eq_of_subset_of_card_le
  · intro x hx
    rw [Finset.mem_image] at hx
    obtain ⟨i, _, rfl⟩ := hx
    exact (hfact i).1
  · rw [Finset.card_image_of_injective _ hinj, Finset.card_univ, Fintype.card_fin,
      hstored, Nat.card_Ico]
    omega

/-- C9 witness: capacity 2, three inserts of symbols 0, 1, 2 — the query
returns exactly the two most recent symbols 1 and 2, each once. -/
theorem fifo_eviction_window_witness :
    0 < 2
    ∧ ((fifoRun 2 3).stored = 2
       ∧ Function.Injective (fun i : Fin (fifoRun 2 3).stored =>
           ((fifoRun 2 3).query (fun _ _ => 0)).2 0 i)
       ∧ Finset.image (fun i : Fin (fifoRun 2 3).stored =>
           ((fifoRun 2 3).query (fun _ _ => 0)).2 0 i) Finset.univ
           = Finset.Ico 1 3) :=
  ⟨by norm_num, fifo_eviction_window 2 1 (by norm_num) (fun _ _ => 0)⟩

end RunCache
